import Mathlib

/-!
Verification of the linear-regression program `estimate.c`.

The program's dense matrices (`double **` grids) are modelled as total
functions `ℕ → ℕ → ℚ`; the program only ever reads and writes cells inside
the allocated `rows × cols` region, and every buffer is passed through
`insertZeroes` before use, so a fresh buffer is modelled by the constant
zero function.  Arithmetic on C `double`s is modelled exactly over ℚ.

Each C loop nest is translated as a fold over `List.range`, writing one
cell at a time exactly as the source does.
-/

namespace Estimate

/-- A dense matrix: the C `double **` grid, modelled as a total function.
Only cells inside the region a caller passes to an operation are relevant. -/
def Mat : Type := ℕ → ℕ → ℚ

/-- Writing a single cell of a matrix: the C assignment `M[i][j] = v`. -/
def mUpdate (M : Mat) (i j : ℕ) (v : ℚ) : Mat :=
  fun a b => if a = i ∧ b = j then v else M a b

/-- A freshly allocated buffer after `insertZeroes`: every cell is `0`. -/
def zeros : Mat := fun _ _ => 0

/-- Innermost loop of `multiply`: `for (k = 0; k < inner; k++) result[i][j] += A[i][k]*B[k][j];`. -/
def mulInner (A B : Mat) (i j : ℕ) (D : Mat) (inner : ℕ) : Mat :=
  (List.range inner).foldl (fun acc k => mUpdate acc i j (acc i j + A i k * B k j)) D

/-- Middle loop of `multiply`: `for (j = 0; j < cols; j++) { ... }`. -/
def mulRow (A B : Mat) (i : ℕ) (D : Mat) (cols inner : ℕ) : Mat :=
  (List.range cols).foldl (fun acc j => mulInner A B i j acc inner) D

/-- The C function `multiply(matrix1, matrix2, result, rows, cols, cols1)`:
a triple loop accumulating `A[i][k] * B[k][j]` into `result[i][j]`.
`A` and `B` are the values of the operand arrays, which the source never
writes to (operands and destination are distinct allocations at every
call site). -/
def multiply (A B D : Mat) (rows cols inner : ℕ) : Mat :=
  (List.range rows).foldl (fun acc i => mulRow A B i acc cols inner) D

/-- Inner loop of `transpose`: `for (j = 0; j < rows; j++) transpose[i][j] = matrix[j][i];`. -/
def transposeRow (M : Mat) (i : ℕ) (D : Mat) (rows : ℕ) : Mat :=
  (List.range rows).foldl (fun acc j => mUpdate acc i j (M j i)) D

/-- The C function `transpose(matrix, transpose, rows, cols)`: writes
`matrix[j][i]` into cell `(i, j)` of the destination for `i < cols`, `j < rows`. -/
def transpose (M D : Mat) (rows cols : ℕ) : Mat :=
  (List.range cols).foldl (fun acc i => transposeRow M i acc rows) D

/-! ### Heap model

To state what `transpose` and `multiply` do to memory they do not own,
the C heap is modelled as a map from allocation identifiers to matrices;
the arguments of a call are identifiers, and the loop bodies read and
write through the heap exactly as the source statements do. -/

/-- The heap: one matrix per allocation identifier. -/
def Heap : Type := ℕ → Mat

/-- The C assignment `m[i][j] = v` for the allocation named `m`. -/
def hUpdate (h : Heap) (m i j : ℕ) (v : ℚ) : Heap :=
  fun a => if a = m then mUpdate (h m) i j v else h a

/-- Innermost loop of `multiply`, acting on the heap:
`result[i][j] += matrix1[i][k] * matrix2[k][j]`. -/
def mulInnerH (h : Heap) (ma mb res i j inner : ℕ) : Heap :=
  (List.range inner).foldl
    (fun acc k => hUpdate acc res i j (acc res i j + acc ma i k * acc mb k j)) h

/-- Middle loop of `multiply` on the heap. -/
def mulRowH (h : Heap) (ma mb res i cols inner : ℕ) : Heap :=
  (List.range cols).foldl (fun acc j => mulInnerH acc ma mb res i j inner) h

/-- The C function `multiply` acting on the heap: `ma`, `mb`, `res` name the
`matrix1`, `matrix2` and `result` allocations. -/
def multiplyH (h : Heap) (ma mb res rows cols inner : ℕ) : Heap :=
  (List.range rows).foldl (fun acc i => mulRowH acc ma mb res i cols inner) h

/-- Inner loop of `transpose` on the heap: `transpose[i][j] = matrix[j][i]`. -/
def transposeRowH (h : Heap) (src dst i rows : ℕ) : Heap :=
  (List.range rows).foldl (fun acc j => hUpdate acc dst i j (acc src j i)) h

/-- The C function `transpose` acting on the heap: `src`, `dst` name the
`matrix` and `transpose` allocations. -/
def transposeH (h : Heap) (src dst rows cols : ℕ) : Heap :=
  (List.range cols).foldl (fun acc i => transposeRowH acc src dst i rows) h

/-! ### Gauss-Jordan inversion (`inverse` in `estimate.c`)

`inverse(matrix, rows, cols)` is only called with `rows = cols = n`; the
pair of arrays it works on — the input `matrix` and the freshly built
`identity_matrix` — is a `GJState`.  Every loop of the C function applies
the same row operation to both arrays, reading the factor `f` from the
input array before the row is rewritten, exactly as the source does.
Upward `for` loops carry an explicit iteration count so that each loop is
structurally recursive. -/

/-- The state of `inverse`: the input array `matrix` (field `A`) and the
augmented array `identity_matrix` (field `I`). -/
structure GJState (n : ℕ) where
  A : Matrix (Fin n) (Fin n) ℚ
  I : Matrix (Fin n) (Fin n) ℚ

/-- The identity array built at the top of `inverse`:
`identity_matrix[i][j] = (i == j) ? 1 : 0`. -/
def identM (n : ℕ) : Matrix (Fin n) (Fin n) ℚ :=
  Matrix.of fun i j => if i = j then 1 else 0

/-- One pivot-normalisation step: `f = matrix[p][p];` then
`matrix[p][ct] /= f; identity_matrix[p][ct] /= f;` for every `ct`. -/
def divStep {n : ℕ} (s : GJState n) (p : Fin n) : GJState n :=
  { A := s.A.updateRow p fun ct => s.A p ct / s.A p p
    I := s.I.updateRow p fun ct => s.I p ct / s.A p p }

/-- One elimination step: `f = matrix[i][p];` then
`matrix[i][ct] -= f * matrix[p][ct]; identity_matrix[i][ct] -= f * identity_matrix[p][ct];`.
Used by the forward loop (`i > p`) and the backward loop (`i < p`). -/
def subStep {n : ℕ} (s : GJState n) (p i : Fin n) : GJState n :=
  { A := s.A.updateRow i fun ct => s.A i ct - s.A i p * s.A p ct
    I := s.I.updateRow i fun ct => s.I i ct - s.A i p * s.I p ct }

/-- Forward inner loop `for (i = p + 1; i < rows; i++)`, iterating from
row index `i` for `fuel` further rows. -/
def elimBelow {n : ℕ} (p : Fin n) : GJState n → ℕ → ℕ → GJState n
  | s, _, 0 => s
  | s, i, fuel + 1 =>
      if h : i < n then elimBelow p (subStep s p ⟨i, h⟩) (i + 1) fuel else s

/-- The whole body of the forward loop at pivot `p`: normalise row `p`,
then eliminate the column below it. -/
def fwdStep {n : ℕ} (s : GJState n) (p : Fin n) : GJState n :=
  elimBelow p (divStep s p) ((p : ℕ) + 1) (n - ((p : ℕ) + 1))

/-- Forward phase `for (p = 0; p < rows; p++)`, iterating from pivot `p`
for `fuel` further pivots. -/
def fwdLoop {n : ℕ} : GJState n → ℕ → ℕ → GJState n
  | s, _, 0 => s
  | s, p, fuel + 1 =>
      if h : p < n then fwdLoop (fwdStep s ⟨p, h⟩) (p + 1) fuel else s

/-- Records whether every pivot value `matrix[p][p]` read by the forward
phase is nonzero (the division in the source is exact only then). -/
def fwdPivots {n : ℕ} : GJState n → ℕ → ℕ → Bool
  | _, _, 0 => true
  | s, p, fuel + 1 =>
      if h : p < n then
        decide (s.A ⟨p, h⟩ ⟨p, h⟩ ≠ 0) && fwdPivots (fwdStep s ⟨p, h⟩) (p + 1) fuel
      else true

/-- Backward inner loop `for (i = p - 1; i >= 0; i--)`: the counter is the
number of rows above `p` still to process. -/
def elimAbove {n : ℕ} (p : Fin n) : GJState n → ℕ → GJState n
  | s, 0 => s
  | s, i + 1 => if h : i < n then elimAbove p (subStep s p ⟨i, h⟩) i else s

/-- Backward phase `for (p = rows - 1; p >= 0; p--)`: the counter is the
number of pivots still to process. -/
def bwdLoop {n : ℕ} : GJState n → ℕ → GJState n
  | s, 0 => s
  | s, p + 1 => if h : p < n then bwdLoop (elimAbove ⟨p, h⟩ s p) p else bwdLoop s p

/-- The full run of `inverse(A, n, n)` on the state pair. -/
def gaussJordan {n : ℕ} (A : Matrix (Fin n) (Fin n) ℚ) : GJState n :=
  bwdLoop (fwdLoop ⟨A, identM n⟩ 0 n) n

/-- The C function `inverse(A, n, n)`: the returned `identity_matrix`. -/
def inverse {n : ℕ} (A : Matrix (Fin n) (Fin n) ℚ) : Matrix (Fin n) (Fin n) ℚ :=
  (gaussJordan A).I

/-- `true` iff Gauss-Jordan elimination on `A` (as `inverse` performs it,
without row swapping) encounters no zero pivot. -/
def noZeroPivot {n : ℕ} (A : Matrix (Fin n) (Fin n) ℚ) : Bool :=
  fwdPivots (GJState.mk A (identM n)) 0 n

/-- Forward-phase progress: columns left of `p` are reduced — a `1` on the
diagonal and `0` everywhere below it. -/
def fwdReduced {n : ℕ} (M : Matrix (Fin n) (Fin n) ℚ) (p : ℕ) : Prop :=
  ∀ j : Fin n, (j : ℕ) < p → M j j = 1 ∧ ∀ i : Fin n, j < i → M i j = 0

/-- Backward-phase progress: in columns `p` and beyond, everything above
the diagonal is `0`. -/
def colCleared {n : ℕ} (M : Matrix (Fin n) (Fin n) ℚ) (p : ℕ) : Prop :=
  ∀ j : Fin n, p ≤ (j : ℕ) → ∀ i : Fin n, i < j → M i j = 0

/-- Invariant of the forward inner loop at pivot `p`, rows below `p` up to
(excluding) `q` already eliminated. -/
def ebInv {n : ℕ} (M : Matrix (Fin n) (Fin n) ℚ) (p : Fin n) (q : ℕ) : Prop :=
  fwdReduced M (p : ℕ) ∧ M p p = 1 ∧ (∀ j : Fin n, (j : ℕ) < (p : ℕ) → M p j = 0) ∧
    ∀ i : Fin n, (p : ℕ) < (i : ℕ) → (i : ℕ) < q → M i p = 0

/-- Invariant of the backward inner loop at pivot `p`: rows from `t` up to
(excluding) `p` already have a `0` in column `p`. -/
def eaInv {n : ℕ} (M : Matrix (Fin n) (Fin n) ℚ) (p : Fin n) (t : ℕ) : Prop :=
  fwdReduced M n ∧ colCleared M ((p : ℕ) + 1) ∧
    ∀ i : Fin n, t ≤ (i : ℕ) → (i : ℕ) < (p : ℕ) → M i p = 0

/-! ### The program (`main` in `estimate.c`)

`main` parses the two files into token streams and runs the pipeline.
A parsed numeric token stream is a `List ℚ`; a cell whose `fscanf` failed
(stream exhausted) keeps the value `0` written by `insertZeroes`, which is
what `List.getD` with default `0` yields. -/

/-- The training feature array `matrix_x`: `nrows × (natt + 1)`, column 0
is the constant `1`, columns `1..natt` are read row-major from the stream,
each row followed by one target token. -/
def matrixX (natt nrows : ℕ) (toks : List ℚ) : Mat := fun i j =>
  if i < nrows ∧ j < natt + 1 then
    (if j = 0 then 1 else toks.getD (i * (natt + 1) + (j - 1)) 0)
  else 0

/-- The training target array `vector_y`: `nrows × 1`, the trailing token
of each training row. -/
def vectorY (natt nrows : ℕ) (toks : List ℚ) : Mat := fun i j =>
  if i < nrows ∧ j = 0 then toks.getD (i * (natt + 1) + natt) 0 else 0

/-- The query feature array `estimator_x`: like `matrixX` but query rows
carry no trailing target, so the row stride is `natt2`. -/
def queryX (natt2 nrows2 : ℕ) (toks : List ℚ) : Mat := fun i j =>
  if i < nrows2 ∧ j < natt2 + 1 then
    (if j = 0 then 1 else toks.getD (i * natt2 + (j - 1)) 0)
  else 0

/-- View the `n × n` region of a `Mat` as a square `Fin`-indexed matrix. -/
def finOfMat (A : Mat) (n : ℕ) : Matrix (Fin n) (Fin n) ℚ :=
  Matrix.of fun i j => A (i : ℕ) (j : ℕ)

/-- View a square `Fin`-indexed matrix as a `Mat` (zero outside the region). -/
def matOfFin {n : ℕ} (M : Matrix (Fin n) (Fin n) ℚ) : Mat := fun i j =>
  if h : i < n ∧ j < n then M ⟨i, h.1⟩ ⟨j, h.2⟩ else 0

/-- The training half of `main`: build `matrix_x` and `vector_y`, then
`transpose_x = transpose(matrix_x, ...)`,
`product_x = multiply(transpose_x, matrix_x, ...)`,
`inverse_x = inverse(product_x, ...)`,
`result_x = multiply(inverse_x, transpose_x, ...)`,
`vector_w = multiply(result_x, vector_y, ...)`,
every destination a freshly zeroed buffer, as in the source. -/
def mainW (natt nrows : ℕ) (toks : List ℚ) : Mat :=
  let X := matrixX natt nrows toks
  let y := vectorY natt nrows toks
  let Xt := transpose X zeros nrows (natt + 1)
  let P := multiply Xt X zeros (natt + 1) (natt + 1) nrows
  let Inv := matOfFin (inverse (finOfMat P (natt + 1)))
  let R := multiply Inv Xt zeros (natt + 1) nrows (natt + 1)
  multiply R y zeros (natt + 1) 1 nrows

/-- Rounding performed by `printf("%.0f", q)` on the exact value `q`:
round to the nearest integer, ties to even (IEEE-754 default rounding). -/
def rnd (q : ℚ) : ℤ :=
  if q - ⌊q⌋ < 1 / 2 then ⌊q⌋
  else if (1 : ℚ) / 2 < q - ⌊q⌋ then ⌊q⌋ + 1
  else if ⌊q⌋ % 2 = 0 then ⌊q⌋ else ⌊q⌋ + 1

/-- The text `printf("%.0f", q)` produces: the rounded value, with the
sign of a negative zero kept as `printf` does. -/
def fmtF0 (q : ℚ) : String :=
  if q < 0 ∧ rnd q = 0 then "-0" else toString (rnd q)

/-- Truncation of a rational toward zero (what the spec text asserts the
printing does; compare with `rnd`). -/
def truncInt (q : ℚ) : ℤ :=
  if 0 ≤ q then ⌊q⌋ else ⌈q⌉

/-- `printPriceMatrix(matrix, rows, 1)`: one output line per row, holding
the formatted single cell of that row. -/
def printPriceLines (M : Mat) (rows : ℕ) : List String :=
  (List.range rows).map fun i => fmtF0 (M i 0)

/-- The whole program: training-file header `(natt, nrows)` and tokens,
query-file header `(natt2, nrows2)` and tokens, to (printed lines, exit
status).  `vector_w` is computed before the query header is checked, as in
`main`; on a header mismatch the program prints `error` and returns `0`. -/
def runProgram (natt nrows : ℕ) (t1 : List ℚ) (natt2 nrows2 : ℕ) (t2 : List ℚ) :
    List String × ℕ :=
  let w := mainW natt nrows t1
  if natt ≠ natt2 then (["error"], 0)
  else
    let Xq := queryX natt2 nrows2 t2
    let preds := multiply Xq w zeros nrows2 1 (natt2 + 1)
    (printPriceLines preds nrows2, 0)

/-- The mathematical prediction for query row `i`: the dot product of the
query features (with intercept) and the learned coefficients. -/
def predictionAt (natt nrows : ℕ) (t1 : List ℚ) (natt2 nrows2 : ℕ) (t2 : List ℚ)
    (i : ℕ) : ℚ :=
  ∑ j in Finset.range (natt2 + 1), queryX natt2 nrows2 t2 i j * mainW natt nrows t1 j 0

/-- The parsed training feature matrix as a `Fin`-indexed matrix. -/
def trainX (natt nrows : ℕ) (toks : List ℚ) : Matrix (Fin nrows) (Fin (natt + 1)) ℚ :=
  Matrix.of fun i j => matrixX natt nrows toks (i : ℕ) (j : ℕ)

/-- The parsed training target vector as a `Fin`-indexed column. -/
def trainY (natt nrows : ℕ) (toks : List ℚ) : Matrix (Fin nrows) (Fin 1) ℚ :=
  Matrix.of fun i _ => vectorY natt nrows toks (i : ℕ) 0

/-! ### Closed forms for the loop nests -/

theorem foldl_range_succ {α : Type} (g : α → ℕ → α) (a : α) (n : ℕ) :
    (List.range (n + 1)).foldl g a = g ((List.range n).foldl g a) n := by
  rw [List.range_succ, List.foldl_append, List.foldl_cons, List.foldl_nil]

theorem mUpdate_self (M : Mat) (i j : ℕ) : mUpdate M i j (M i j) = M := by
  funext a b
  by_cases h : a = i ∧ b = j
  · simp [mUpdate, h.1, h.2]
  · simp [mUpdate, h]

theorem mUpdate_apply (M : Mat) (i j : ℕ) (v : ℚ) (a b : ℕ) :
    mUpdate M i j v a b = if a = i ∧ b = j then v else M a b := rfl

theorem mulInner_eq (A B : Mat) (i j : ℕ) (D : Mat) (n : ℕ) :
    mulInner A B i j D n
      = mUpdate D i j (D i j + ∑ k in Finset.range n, A i k * B k j) := by
  induction n with
  | zero =>
      simp only [mulInner, List.range_zero, List.foldl_nil, Finset.range_zero,
        Finset.sum_empty, add_zero, mUpdate_self]
  | succ n ih =>
      simp only [mulInner] at ih ⊢
      rw [foldl_range_succ, ih]
      funext a b
      by_cases h : a = i ∧ b = j
      · simp [mUpdate, h.1, h.2, Finset.sum_range_succ, add_assoc]
      · simp [mUpdate, h]

theorem mulRow_eq (A B : Mat) (i : ℕ) (D : Mat) (cols inner : ℕ) : ∀ a b,
    mulRow A B i D cols inner a b
      = if a = i ∧ b < cols then D a b + ∑ k in Finset.range inner, A a k * B k b
        else D a b := by
  induction cols with
  | zero =>
      intro a b
      simp [mulRow]
  | succ cols ih =>
      intro a b
      simp only [mulRow] at ih ⊢
      rw [foldl_range_succ, mulInner_eq, mUpdate_apply]
      by_cases h : a = i ∧ b = cols
      · obtain ⟨rfl, rfl⟩ := h
        rw [if_pos ⟨rfl, rfl⟩, ih, if_neg (by simp), if_pos ⟨rfl, Nat.lt_succ_self b⟩]
      · rw [if_neg h, ih]
        by_cases h2 : a = i ∧ b < cols
        · rw [if_pos h2, if_pos ⟨h2.1, by omega⟩]
        · have hc : ¬ (a = i ∧ b < cols + 1) := by
            rintro ⟨rfl, hb⟩
            rcases Nat.lt_succ_iff_lt_or_eq.mp hb with hb' | rfl
            · exact h2 ⟨rfl, hb'⟩
            · exact h ⟨rfl, rfl⟩
          rw [if_neg h2, if_neg hc]

theorem multiply_eq (A B D : Mat) (rows cols inner : ℕ) : ∀ a b,
    multiply A B D rows cols inner a b
      = if a < rows ∧ b < cols then D a b + ∑ k in Finset.range inner, A a k * B k b
        else D a b := by
  induction rows with
  | zero =>
      intro a b
      simp [multiply]
  | succ rows ih =>
      intro a b
      simp only [multiply] at ih ⊢
      rw [foldl_range_succ, mulRow_eq]
      by_cases h : a = rows ∧ b < cols
      · obtain ⟨rfl, hb⟩ := h
        rw [if_pos ⟨rfl, hb⟩, ih, if_neg (by simp), if_pos ⟨Nat.lt_succ_self a, hb⟩]
      · rw [if_neg h, ih]
        by_cases h2 : a < rows ∧ b < cols
        · rw [if_pos h2, if_pos ⟨by omega, h2.2⟩]
        · have hc : ¬ (a < rows + 1 ∧ b < cols) := by
            rintro ⟨ha, hb⟩
            rcases Nat.lt_succ_iff_lt_or_eq.mp ha with ha' | rfl
            · exact h2 ⟨ha', hb⟩
            · exact h ⟨rfl, hb⟩
          rw [if_neg h2, if_neg hc]

theorem transposeRow_eq (M : Mat) (i : ℕ) (D : Mat) (rows : ℕ) : ∀ a b,
    transposeRow M i D rows a b
      = if a = i ∧ b < rows then M b a else D a b := by
  induction rows with
  | zero =>
      intro a b
      simp [transposeRow]
  | succ rows ih =>
      intro a b
      simp only [transposeRow] at ih ⊢
      rw [foldl_range_succ, mUpdate_apply]
      by_cases h : a = i ∧ b = rows
      · obtain ⟨rfl, rfl⟩ := h
        rw [if_pos ⟨rfl, rfl⟩, if_pos ⟨rfl, Nat.lt_succ_self b⟩]
      · rw [if_neg h, ih]
        by_cases h2 : a = i ∧ b < rows
        · rw [if_pos h2, if_pos ⟨h2.1, by omega⟩]
        · have hc : ¬ (a = i ∧ b < rows + 1) := by
            rintro ⟨rfl, hb⟩
            rcases Nat.lt_succ_iff_lt_or_eq.mp hb with hb' | rfl
            · exact h2 ⟨rfl, hb'⟩
            · exact h ⟨rfl, rfl⟩
          rw [if_neg h2, if_neg hc]

theorem transpose_eq (M D : Mat) (rows cols : ℕ) : ∀ a b,
    transpose M D rows cols a b
      = if a < cols ∧ b < rows then M b a else D a b := by
  induction cols with
  | zero =>
      intro a b
      simp [transpose]
  | succ cols ih =>
      intro a b
      simp only [transpose] at ih ⊢
      rw [foldl_range_succ, transposeRow_eq]
      by_cases h : a = cols ∧ b < rows
      · obtain ⟨rfl, hb⟩ := h
        rw [if_pos ⟨rfl, hb⟩, if_pos ⟨Nat.lt_succ_self a, hb⟩]
      · rw [if_neg h, ih]
        by_cases h2 : a < cols ∧ b < rows
        · rw [if_pos h2, if_pos ⟨by omega, h2.2⟩]
        · have hc : ¬ (a < cols + 1 ∧ b < rows) := by
            rintro ⟨ha, hb⟩
            rcases Nat.lt_succ_iff_lt_or_eq.mp ha with ha' | rfl
            · exact h2 ⟨ha', hb⟩
            · exact h ⟨rfl, hb⟩
          rw [if_neg h2, if_neg hc]

/-! ### Heap-level loops: step lemmas, frame, and agreement with the value-level loops -/

theorem hUpdate_ne (h : Heap) (m i j : ℕ) (v : ℚ) (a : ℕ) (ha : a ≠ m) :
    hUpdate h m i j v a = h a := by
  simp [hUpdate, ha]

theorem hUpdate_at (h : Heap) (m i j : ℕ) (v : ℚ) :
    hUpdate h m i j v m = mUpdate (h m) i j v := by
  simp [hUpdate]

theorem mulInner_succ (A B : Mat) (i j : ℕ) (D : Mat) (n : ℕ) :
    mulInner A B i j D (n + 1)
      = mUpdate (mulInner A B i j D n) i j
          (mulInner A B i j D n i j + A i n * B n j) := by
  simp only [mulInner]
  rw [foldl_range_succ]

theorem mulInnerH_succ (h : Heap) (ma mb res i j n : ℕ) :
    mulInnerH h ma mb res i j (n + 1)
      = hUpdate (mulInnerH h ma mb res i j n) res i j
          (mulInnerH h ma mb res i j n res i j
            + mulInnerH h ma mb res i j n ma i n
              * mulInnerH h ma mb res i j n mb n j) := by
  simp only [mulInnerH]
  rw [foldl_range_succ]

theorem mulRowH_succ (h : Heap) (ma mb res i cols inner : ℕ) :
    mulRowH h ma mb res i (cols + 1) inner
      = mulInnerH (mulRowH h ma mb res i cols inner) ma mb res i cols inner := by
  simp only [mulRowH]
  rw [foldl_range_succ]

theorem mulRow_succ (A B : Mat) (i : ℕ) (D : Mat) (cols inner : ℕ) :
    mulRow A B i D (cols + 1) inner
      = mulInner A B i cols (mulRow A B i D cols inner) inner := by
  simp only [mulRow]
  rw [foldl_range_succ]

theorem multiplyH_succ (h : Heap) (ma mb res rows cols inner : ℕ) :
    multiplyH h ma mb res (rows + 1) cols inner
      = mulRowH (multiplyH h ma mb res rows cols inner) ma mb res rows cols inner := by
  simp only [multiplyH]
  rw [foldl_range_succ]

theorem multiply_succ (A B D : Mat) (rows cols inner : ℕ) :
    multiply A B D (rows + 1) cols inner
      = mulRow A B rows (multiply A B D rows cols inner) cols inner := by
  simp only [multiply]
  rw [foldl_range_succ]

theorem transposeRowH_succ (h : Heap) (src dst i rows : ℕ) :
    transposeRowH h src dst i (rows + 1)
      = hUpdate (transposeRowH h src dst i rows) dst i rows
          (transposeRowH h src dst i rows src rows i) := by
  simp only [transposeRowH]
  rw [foldl_range_succ]

theorem transposeRow_succ (M : Mat) (i : ℕ) (D : Mat) (rows : ℕ) :
    transposeRow M i D (rows + 1)
      = mUpdate (transposeRow M i D rows) i rows (M rows i) := by
  simp only [transposeRow]
  rw [foldl_range_succ]

theorem transposeH_succ (h : Heap) (src dst rows cols : ℕ) :
    transposeH h src dst rows (cols + 1)
      = transposeRowH (transposeH h src dst rows cols) src dst cols rows := by
  simp only [transposeH]
  rw [foldl_range_succ]

theorem transpose_succ (M D : Mat) (rows cols : ℕ) :
    transpose M D rows (cols + 1)
      = transposeRow M cols (transpose M D rows cols) rows := by
  simp only [transpose]
  rw [foldl_range_succ]

theorem mulInnerH_spec (h : Heap) (ma mb res i j n : ℕ)
    (hma : ma ≠ res) (hmb : mb ≠ res) :
    (∀ id, id ≠ res → mulInnerH h ma mb res i j n id = h id) ∧
      mulInnerH h ma mb res i j n res = mulInner (h ma) (h mb) i j (h res) n := by
  induction n with
  | zero => exact ⟨fun id _ => rfl, rfl⟩
  | succ n ih =>
      obtain ⟨ihf, ihr⟩ := ih
      constructor
      · intro id hid
        rw [mulInnerH_succ, hUpdate_ne _ _ _ _ _ _ hid, ihf id hid]
      · rw [mulInnerH_succ, hUpdate_at, ihr, ihf ma hma, ihf mb hmb, mulInner_succ]

theorem mulRowH_spec (h : Heap) (ma mb res i cols inner : ℕ)
    (hma : ma ≠ res) (hmb : mb ≠ res) :
    (∀ id, id ≠ res → mulRowH h ma mb res i cols inner id = h id) ∧
      mulRowH h ma mb res i cols inner res
        = mulRow (h ma) (h mb) i (h res) cols inner := by
  induction cols with
  | zero => exact ⟨fun id _ => rfl, rfl⟩
  | succ cols ih =>
      obtain ⟨ihf, ihr⟩ := ih
      obtain ⟨hf, hr⟩ :=
        mulInnerH_spec (mulRowH h ma mb res i cols inner) ma mb res i cols inner hma hmb
      constructor
      · intro id hid
        rw [mulRowH_succ, hf id hid, ihf id hid]
      · rw [mulRowH_succ, hr, ihr, ihf ma hma, ihf mb hmb, mulRow_succ]

theorem multiplyH_spec (h : Heap) (ma mb res rows cols inner : ℕ)
    (hma : ma ≠ res) (hmb : mb ≠ res) :
    (∀ id, id ≠ res → multiplyH h ma mb res rows cols inner id = h id) ∧
      multiplyH h ma mb res rows cols inner res
        = multiply (h ma) (h mb) (h res) rows cols inner := by
  induction rows with
  | zero => exact ⟨fun id _ => rfl, rfl⟩
  | succ rows ih =>
      obtain ⟨ihf, ihr⟩ := ih
      obtain ⟨hf, hr⟩ :=
        mulRowH_spec (multiplyH h ma mb res rows cols inner) ma mb res rows cols inner hma hmb
      constructor
      · intro id hid
        rw [multiplyH_succ, hf id hid, ihf id hid]
      · rw [multiplyH_succ, hr, ihr, ihf ma hma, ihf mb hmb, multiply_succ]

theorem transposeRowH_spec (h : Heap) (src dst i rows : ℕ) (hsd : src ≠ dst) :
    (∀ id, id ≠ dst → transposeRowH h src dst i rows id = h id) ∧
      transposeRowH h src dst i rows dst = transposeRow (h src) i (h dst) rows := by
  induction rows with
  | zero => exact ⟨fun id _ => rfl, rfl⟩
  | succ rows ih =>
      obtain ⟨ihf, ihr⟩ := ih
      constructor
      · intro id hid
        rw [transposeRowH_succ, hUpdate_ne _ _ _ _ _ _ hid, ihf id hid]
      · rw [transposeRowH_succ, hUpdate_at, ihr, ihf src hsd, transposeRow_succ]

theorem transposeH_spec (h : Heap) (src dst rows cols : ℕ) (hsd : src ≠ dst) :
    (∀ id, id ≠ dst → transposeH h src dst rows cols id = h id) ∧
      transposeH h src dst rows cols dst = transpose (h src) (h dst) rows cols := by
  induction cols with
  | zero => exact ⟨fun id _ => rfl, rfl⟩
  | succ cols ih =>
      obtain ⟨ihf, ihr⟩ := ih
      obtain ⟨hf, hr⟩ := transposeRowH_spec (transposeH h src dst rows cols) src dst cols rows hsd
      constructor
      · intro id hid
        rw [transposeH_succ, hf id hid, ihf id hid]
      · rw [transposeH_succ, hr, ihr, ihf src hsd, transpose_succ]

/-! ### Gauss-Jordan: the augmented array tracks a left multiple of the input

Every row operation of `inverse` applies the same linear row combination to
`matrix` and to `identity_matrix`, so `identity_matrix * A₀ = matrix` holds
from the moment both arrays exist until the function returns. -/

theorem identM_eq_one (n : ℕ) : identM n = 1 := by
  ext i j
  simp [identM, Matrix.one_apply]

theorem divStep_mul {n : ℕ} (s : GJState n) (p : Fin n) (B : Matrix (Fin n) (Fin n) ℚ)
    (h : s.I * B = s.A) : (divStep s p).I * B = (divStep s p).A := by
  have hA : ∀ r j, (s.I * B) r j = s.A r j := fun r j => by rw [h]
  ext r j
  by_cases hr : r = p
  · subst hr
    have lhs : ((divStep s r).I * B) r j = (∑ k, s.I r k * B k j) / s.A r r := by
      rw [Matrix.mul_apply, Finset.sum_div]
      refine Finset.sum_congr rfl fun k _ => ?_
      simp [divStep, Matrix.updateRow_apply, div_mul_eq_mul_div]
    rw [lhs, ← Matrix.mul_apply, hA]
    simp [divStep, Matrix.updateRow_apply]
  · have lhs : ((divStep s p).I * B) r j = (s.I * B) r j := by
      rw [Matrix.mul_apply, Matrix.mul_apply]
      refine Finset.sum_congr rfl fun k _ => ?_
      simp [divStep, Matrix.updateRow_apply, hr]
    rw [lhs, hA]
    simp [divStep, Matrix.updateRow_apply, hr]

theorem subStep_mul {n : ℕ} (s : GJState n) (p i : Fin n) (B : Matrix (Fin n) (Fin n) ℚ)
    (h : s.I * B = s.A) : (subStep s p i).I * B = (subStep s p i).A := by
  have hA : ∀ r j, (s.I * B) r j = s.A r j := fun r j => by rw [h]
  ext r j
  by_cases hr : r = i
  · subst hr
    have lhs : ((subStep s p r).I * B) r j
        = (∑ k, s.I r k * B k j) - s.A r p * ∑ k, s.I p k * B k j := by
      rw [Matrix.mul_apply, Finset.mul_sum, ← Finset.sum_sub_distrib]
      refine Finset.sum_congr rfl fun k _ => ?_
      simp [subStep, Matrix.updateRow_apply, sub_mul, mul_assoc]
    rw [lhs, ← Matrix.mul_apply, ← Matrix.mul_apply, hA, hA]
    simp [subStep, Matrix.updateRow_apply]
  · have lhs : ((subStep s p i).I * B) r j = (s.I * B) r j := by
      rw [Matrix.mul_apply, Matrix.mul_apply]
      refine Finset.sum_congr rfl fun k _ => ?_
      simp [subStep, Matrix.updateRow_apply, hr]
    rw [lhs, hA]
    simp [subStep, Matrix.updateRow_apply, hr]

theorem elimBelow_mul {n : ℕ} (p : Fin n) (B : Matrix (Fin n) (Fin n) ℚ) :
    ∀ (fuel i : ℕ) (s : GJState n), s.I * B = s.A →
      (elimBelow p s i fuel).I * B = (elimBelow p s i fuel).A := by
  intro fuel
  induction fuel with
  | zero => intro i s h; exact h
  | succ fuel ih =>
      intro i s h
      have estep : elimBelow p s i (fuel + 1)
          = if hi : i < n then elimBelow p (subStep s p ⟨i, hi⟩) (i + 1) fuel else s := rfl
      rw [estep]
      by_cases hi : i < n
      · rw [dif_pos hi]
        exact ih (i + 1) _ (subStep_mul s p ⟨i, hi⟩ B h)
      · rw [dif_neg hi]
        exact h

theorem fwdStep_mul {n : ℕ} (s : GJState n) (p : Fin n) (B : Matrix (Fin n) (Fin n) ℚ)
    (h : s.I * B = s.A) : (fwdStep s p).I * B = (fwdStep s p).A :=
  elimBelow_mul p B _ _ _ (divStep_mul s p B h)

theorem fwdLoop_mul {n : ℕ} (B : Matrix (Fin n) (Fin n) ℚ) :
    ∀ (fuel p : ℕ) (s : GJState n), s.I * B = s.A →
      (fwdLoop s p fuel).I * B = (fwdLoop s p fuel).A := by
  intro fuel
  induction fuel with
  | zero => intro p s h; exact h
  | succ fuel ih =>
      intro p s h
      have estep : fwdLoop s p (fuel + 1)
          = if hp : p < n then fwdLoop (fwdStep s ⟨p, hp⟩) (p + 1) fuel else s := rfl
      rw [estep]
      by_cases hp : p < n
      · rw [dif_pos hp]
        exact ih (p + 1) _ (fwdStep_mul s ⟨p, hp⟩ B h)
      · rw [dif_neg hp]
        exact h

theorem elimAbove_mul {n : ℕ} (p : Fin n) (B : Matrix (Fin n) (Fin n) ℚ) :
    ∀ (t : ℕ) (s : GJState n), s.I * B = s.A →
      (elimAbove p s t).I * B = (elimAbove p s t).A := by
  intro t
  induction t with
  | zero => intro s h; exact h
  | succ t ih =>
      intro s h
      have estep : elimAbove p s (t + 1)
          = if ht : t < n then elimAbove p (subStep s p ⟨t, ht⟩) t else s := rfl
      rw [estep]
      by_cases ht : t < n
      · rw [dif_pos ht]
        exact ih _ (subStep_mul s p ⟨t, ht⟩ B h)
      · rw [dif_neg ht]
        exact h

theorem bwdLoop_mul {n : ℕ} (B : Matrix (Fin n) (Fin n) ℚ) :
    ∀ (q : ℕ) (s : GJState n), s.I * B = s.A →
      (bwdLoop s q).I * B = (bwdLoop s q).A := by
  intro q
  induction q with
  | zero => intro s h; exact h
  | succ q ih =>
      intro s h
      have estep : bwdLoop s (q + 1)
          = if hq : q < n then bwdLoop (elimAbove ⟨q, hq⟩ s q) q else bwdLoop s q := rfl
      rw [estep]
      by_cases hq : q < n
      · rw [dif_pos hq]
        exact ih _ (elimAbove_mul ⟨q, hq⟩ B q s h)
      · rw [dif_neg hq]
        exact ih _ h

theorem gaussJordan_mul {n : ℕ} (A : Matrix (Fin n) (Fin n) ℚ) :
    (gaussJordan A).I * A = (gaussJordan A).A := by
  have h0 : (GJState.mk A (identM n)).I * A = (GJState.mk A (identM n)).A := by
    show identM n * A = A
    rw [identM_eq_one, one_mul]
  exact bwdLoop_mul A n _ (fwdLoop_mul A n 0 _ h0)

/-! ### Gauss-Jordan: with nonzero pivots the input array reaches the identity -/

theorem divStep_ebInv {n : ℕ} (s : GJState n) (p : Fin n)
    (hred : fwdReduced s.A (p : ℕ)) (hp : s.A p p ≠ 0) :
    ebInv (divStep s p).A p ((p : ℕ) + 1) := by
  have happ : ∀ r c : Fin n, (divStep s p).A r c
      = if r = p then s.A p c / s.A p p else s.A r c := by
    intro r c
    simp [divStep, Matrix.updateRow_apply]
  refine ⟨?_, ?_, ?_, ?_⟩
  · intro j hj
    have hj' := hred j hj
    have hjp : j ≠ p := by
      intro e
      rw [e] at hj
      exact lt_irrefl _ hj
    constructor
    · rw [happ, if_neg hjp]
      exact hj'.1
    · intro r hjr
      by_cases hr : r = p
      · rw [happ, if_pos hr]
        rw [hr] at hjr
        rw [hj'.2 p hjr, zero_div]
      · rw [happ, if_neg hr]
        exact hj'.2 r hjr
  · rw [happ, if_pos rfl]
    exact div_self hp
  · intro j hj
    rw [happ, if_pos rfl]
    rw [(hred j hj).2 p hj, zero_div]
  · intro r hpr hri
    exact absurd hri (by omega)

theorem subStep_ebInv {n : ℕ} (s : GJState n) (p i : Fin n)
    (hpi : (p : ℕ) < (i : ℕ)) (hinv : ebInv s.A p (i : ℕ)) :
    ebInv (subStep s p i).A p ((i : ℕ) + 1) := by
  obtain ⟨hred, hpp, hprow, hcol⟩ := hinv
  have hip : i ≠ p := by
    intro e
    rw [e] at hpi
    exact lt_irrefl _ hpi
  have happ : ∀ r c : Fin n, (subStep s p i).A r c
      = if r = i then s.A i c - s.A i p * s.A p c else s.A r c := by
    intro r c
    simp [subStep, Matrix.updateRow_apply]
  refine ⟨?_, ?_, ?_, ?_⟩
  · intro j hj
    have hj' := hred j hj
    have hji : j ≠ i := by
      intro e
      rw [e] at hj
      exact absurd hj (by omega)
    constructor
    · rw [happ, if_neg hji]
      exact hj'.1
    · intro r hjr
      by_cases hr : r = i
      · rw [happ, if_pos hr]
        rw [hr] at hjr
        rw [hj'.2 i hjr, hprow j hj, mul_zero, sub_zero]
      · rw [happ, if_neg hr]
        exact hj'.2 r hjr
  · rw [happ, if_neg fun e => hip e.symm]
    exact hpp
  · intro j hj
    rw [happ, if_neg fun e => hip e.symm]
    exact hprow j hj
  · intro r hpr hri
    by_cases hr : r = i
    · rw [happ, if_pos hr, hpp, mul_one]
      exact sub_self _
    · have hri' : (r : ℕ) < (i : ℕ) := by
        have hne : (r : ℕ) ≠ (i : ℕ) := fun e => hr (Fin.ext e)
        omega
      rw [happ, if_neg hr]
      exact hcol r hpr hri'

theorem elimBelow_inv {n : ℕ} (p : Fin n) :
    ∀ (fuel i : ℕ), i + fuel = n → (p : ℕ) < i →
      ∀ s : GJState n, ebInv s.A p i → ebInv (elimBelow p s i fuel).A p n := by
  intro fuel
  induction fuel with
  | zero =>
      intro i hi _ s hinv
      have : i = n := by omega
      subst this
      exact hinv
  | succ fuel ih =>
      intro i hi hpi s hinv
      have hin : i < n := by omega
      have estep : elimBelow p s i (fuel + 1)
          = if h : i < n then elimBelow p (subStep s p ⟨i, h⟩) (i + 1) fuel else s := rfl
      rw [estep, dif_pos hin]
      exact ih (i + 1) (by omega) (by omega) _ (subStep_ebInv s p ⟨i, hin⟩ hpi hinv)

theorem ebInv_n {n : ℕ} (M : Matrix (Fin n) (Fin n) ℚ) (p : Fin n)
    (h : ebInv M p n) : fwdReduced M ((p : ℕ) + 1) := by
  obtain ⟨hred, hpp, _, hcol⟩ := h
  intro j hj
  by_cases hjp : (j : ℕ) < (p : ℕ)
  · exact hred j hjp
  · have hje : j = p := Fin.ext (by omega)
    rw [hje]
    exact ⟨hpp, fun i hi => hcol i hi i.isLt⟩

theorem fwdStep_reduced {n : ℕ} (s : GJState n) (p : ℕ) (hp : p < n)
    (hred : fwdReduced s.A p) (hpiv : s.A ⟨p, hp⟩ ⟨p, hp⟩ ≠ 0) :
    fwdReduced (fwdStep s ⟨p, hp⟩).A (p + 1) := by
  have h1 := divStep_ebInv s ⟨p, hp⟩ hred hpiv
  have h2 := elimBelow_inv ⟨p, hp⟩ (n - (p + 1)) (p + 1) (by omega)
    (by exact Nat.lt_succ_self p) _ h1
  exact ebInv_n _ _ h2

theorem fwdLoop_reduced {n : ℕ} :
    ∀ (fuel p : ℕ), p + fuel = n →
      ∀ s : GJState n, fwdReduced s.A p → fwdPivots s p fuel = true →
        fwdReduced (fwdLoop s p fuel).A n := by
  intro fuel
  induction fuel with
  | zero =>
      intro p hp s hred _
      have : p = n := by omega
      subst this
      exact hred
  | succ fuel ih =>
      intro p hp s hred hpiv
      have hpn : p < n := by omega
      have estep : fwdLoop s p (fuel + 1)
          = if h : p < n then fwdLoop (fwdStep s ⟨p, h⟩) (p + 1) fuel else s := rfl
      have pstep : fwdPivots s p (fuel + 1)
          = if h : p < n then
              decide (s.A ⟨p, h⟩ ⟨p, h⟩ ≠ 0) && fwdPivots (fwdStep s ⟨p, h⟩) (p + 1) fuel
            else true := rfl
      rw [pstep, dif_pos hpn, Bool.and_eq_true, decide_eq_true_eq] at hpiv
      rw [estep, dif_pos hpn]
      exact ih (p + 1) (by omega) _ (fwdStep_reduced s p hpn hred hpiv.1) hpiv.2

theorem subStep_eaInv {n : ℕ} (s : GJState n) (p t : Fin n)
    (htp : (t : ℕ) < (p : ℕ)) (hinv : eaInv s.A p ((t : ℕ) + 1)) :
    eaInv (subStep s p t).A p (t : ℕ) := by
  obtain ⟨huut, hcc, hcol⟩ := hinv
  have happ : ∀ r c : Fin n, (subStep s p t).A r c
      = if r = t then s.A t c - s.A t p * s.A p c else s.A r c := by
    intro r c
    simp [subStep, Matrix.updateRow_apply]
  have rp_left : ∀ c : Fin n, (c : ℕ) < (p : ℕ) → s.A p c = 0 := by
    intro c hc
    exact (huut c c.isLt).2 p hc
  refine ⟨?_, ?_, ?_⟩
  · intro j hj
    have hj' := huut j hj
    constructor
    · by_cases hjt : j = t
      · rw [happ, if_pos hjt, hjt, rp_left t htp, mul_zero, sub_zero]
        exact (huut t t.isLt).1
      · rw [happ, if_neg hjt]
        exact hj'.1
    · intro r hjr
      by_cases hrt : r = t
      · rw [happ, if_pos hrt]
        rw [hrt] at hjr
        have h2 : s.A p j = 0 := rp_left j (by
          have hjt : (j : ℕ) < (t : ℕ) := hjr
          omega)
        rw [hj'.2 t hjr, h2, mul_zero, sub_zero]
      · rw [happ, if_neg hrt]
        exact hj'.2 r hjr
  · intro j hjp r hrj
    by_cases hrt : r = t
    · rw [happ, if_pos hrt]
      have h1 : s.A t j = 0 := hcc j hjp t (by
        have hj1 : (p : ℕ) + 1 ≤ (j : ℕ) := hjp
        show (t : ℕ) < (j : ℕ)
        omega)
      have h2 : s.A p j = 0 := hcc j hjp p (by
        have hj1 : (p : ℕ) + 1 ≤ (j : ℕ) := hjp
        show (p : ℕ) < (j : ℕ)
        omega)
      rw [h1, h2, mul_zero, sub_zero]
    · rw [happ, if_neg hrt]
      exact hcc j hjp r hrj
  · intro r htr hrp
    by_cases hrt : r = t
    · rw [happ, if_pos hrt, (huut p p.isLt).1, mul_one]
      exact sub_self _
    · have htr' : (t : ℕ) + 1 ≤ (r : ℕ) := by
        have hne : (r : ℕ) ≠ (t : ℕ) := fun e => hrt (Fin.ext e)
        omega
      rw [happ, if_neg hrt]
      exact hcol r htr' hrp

theorem elimAbove_inv {n : ℕ} (p : Fin n) :
    ∀ (t : ℕ), t ≤ (p : ℕ) →
      ∀ s : GJState n, eaInv s.A p t → eaInv (elimAbove p s t).A p 0 := by
  intro t
  induction t with
  | zero => intro _ s hinv; exact hinv
  | succ t ih =>
      intro ht s hinv
      have htn : t < n := by
        have := p.isLt
        omega
      have estep : elimAbove p s (t + 1)
          = if h : t < n then elimAbove p (subStep s p ⟨t, h⟩) t else s := rfl
      rw [estep, dif_pos htn]
      exact ih (by omega) _ (subStep_eaInv s p ⟨t, htn⟩ (show t < (p : ℕ) by omega) hinv)

theorem eaInv_zero {n : ℕ} (M : Matrix (Fin n) (Fin n) ℚ) (p : Fin n)
    (h : eaInv M p 0) : fwdReduced M n ∧ colCleared M (p : ℕ) := by
  obtain ⟨huut, hcc, hcol⟩ := h
  refine ⟨huut, ?_⟩
  intro j hj r hrj
  by_cases hje : (j : ℕ) = (p : ℕ)
  · have hjp : j = p := Fin.ext hje
    rw [hjp] at hrj ⊢
    exact hcol r (Nat.zero_le _) hrj
  · exact hcc j (by omega) r hrj

theorem bwdLoop_inv {n : ℕ} :
    ∀ (q : ℕ), q ≤ n → ∀ s : GJState n,
      fwdReduced s.A n → colCleared s.A q →
      fwdReduced (bwdLoop s q).A n ∧ colCleared (bwdLoop s q).A 0 := by
  intro q
  induction q with
  | zero => intro _ s h1 h2; exact ⟨h1, h2⟩
  | succ q ih =>
      intro hq s h1 h2
      have hqn : q < n := by omega
      have estep : bwdLoop s (q + 1)
          = if h : q < n then bwdLoop (elimAbove ⟨q, h⟩ s q) q else bwdLoop s q := rfl
      rw [estep, dif_pos hqn]
      have hea : eaInv s.A ⟨q, hqn⟩ q := by
        refine ⟨h1, h2, ?_⟩
        intro i hqi hiq
        exact absurd (lt_of_le_of_lt hqi hiq) (lt_irrefl _)
      obtain ⟨h4, h5⟩ := eaInv_zero _ _ (elimAbove_inv ⟨q, hqn⟩ q (le_refl q) s hea)
      exact ih (by omega) _ h4 h5

theorem gaussJordan_A_one {n : ℕ} (A : Matrix (Fin n) (Fin n) ℚ)
    (hnp : noZeroPivot A = true) : (gaussJordan A).A = 1 := by
  have hfwd : fwdReduced (fwdLoop (GJState.mk A (identM n)) 0 n).A n := by
    apply fwdLoop_reduced n 0 (by omega) _ _ hnp
    intro j hj
    exact absurd hj (Nat.not_lt_zero _)
  have hcl : colCleared (fwdLoop (GJState.mk A (identM n)) 0 n).A n := by
    intro j hj
    exact absurd j.isLt (not_lt.mpr hj)
  obtain ⟨huut, hcc⟩ := bwdLoop_inv n (le_refl n) _ hfwd hcl
  ext i j
  rcases lt_trichotomy i j with hij | hij | hij
  · rw [Matrix.one_apply_ne (ne_of_lt hij)]
    exact hcc j (Nat.zero_le _) i hij
  · rw [hij, Matrix.one_apply_eq]
    exact (huut j j.isLt).1
  · rw [Matrix.one_apply_ne (ne_of_gt hij)]
    exact (huut j j.isLt).2 i hij

theorem inverse_mul {n : ℕ} (A : Matrix (Fin n) (Fin n) ℚ)
    (hnp : noZeroPivot A = true) : inverse A * A = 1 := by
  have h := gaussJordan_mul A
  rw [gaussJordan_A_one A hnp] at h
  exact h

/-! ### The training pipeline computes the normal-equations solution -/

theorem matOfFin_apply {n : ℕ} (M : Matrix (Fin n) (Fin n) ℚ) (a b : Fin n) :
    matOfFin M (a : ℕ) (b : ℕ) = M a b := by
  simp [matOfFin]

theorem transpose_in (X : Mat) (rows cols a b : ℕ) (ha : a < cols) (hb : b < rows) :
    transpose X zeros rows cols a b = X b a := by
  rw [transpose_eq, if_pos ⟨ha, hb⟩]

theorem prodX_eq (natt nrows : ℕ) (toks : List ℚ) :
    finOfMat
        (multiply (transpose (matrixX natt nrows toks) zeros nrows (natt + 1))
          (matrixX natt nrows toks) zeros (natt + 1) (natt + 1) nrows)
        (natt + 1)
      = (trainX natt nrows toks).transpose * trainX natt nrows toks := by
  ext a b
  show multiply (transpose (matrixX natt nrows toks) zeros nrows (natt + 1))
      (matrixX natt nrows toks) zeros (natt + 1) (natt + 1) nrows (a : ℕ) (b : ℕ)
    = ((trainX natt nrows toks).transpose * trainX natt nrows toks) a b
  rw [multiply_eq, if_pos ⟨a.isLt, b.isLt⟩, show zeros (a : ℕ) (b : ℕ) = 0 from rfl, zero_add,
    Matrix.mul_apply]
  rw [← Fin.sum_univ_eq_sum_range
    (fun k => transpose (matrixX natt nrows toks) zeros nrows (natt + 1) (a : ℕ) k
      * matrixX natt nrows toks k (b : ℕ)) nrows]
  refine Finset.sum_congr rfl fun k _ => ?_
  rw [transpose_in _ _ _ _ _ a.isLt k.isLt]
  rfl

theorem mainW_eq_normal (natt nrows : ℕ) (toks : List ℚ) (i : Fin (natt + 1)) :
    mainW natt nrows toks (i : ℕ) 0
      = (inverse ((trainX natt nrows toks).transpose * trainX natt nrows toks)
          * (trainX natt nrows toks).transpose * trainY natt nrows toks) i 0 := by
  have hInv : ∀ a b : Fin (natt + 1),
      matOfFin (inverse (finOfMat
          (multiply (transpose (matrixX natt nrows toks) zeros nrows (natt + 1))
            (matrixX natt nrows toks) zeros (natt + 1) (natt + 1) nrows) (natt + 1)))
        (a : ℕ) (b : ℕ)
      = inverse ((trainX natt nrows toks).transpose * trainX natt nrows toks) a b := by
    intro a b
    rw [matOfFin_apply, prodX_eq]
  show multiply
      (multiply
        (matOfFin (inverse (finOfMat
          (multiply (transpose (matrixX natt nrows toks) zeros nrows (natt + 1))
            (matrixX natt nrows toks) zeros (natt + 1) (natt + 1) nrows) (natt + 1))))
        (transpose (matrixX natt nrows toks) zeros nrows (natt + 1))
        zeros (natt + 1) nrows (natt + 1))
      (vectorY natt nrows toks) zeros (natt + 1) 1 nrows (i : ℕ) 0
    = _
  rw [multiply_eq, if_pos ⟨i.isLt, Nat.zero_lt_one⟩, show zeros (i : ℕ) 0 = 0 from rfl,
    zero_add]
  rw [← Fin.sum_univ_eq_sum_range
    (fun k => multiply
        (matOfFin (inverse (finOfMat
          (multiply (transpose (matrixX natt nrows toks) zeros nrows (natt + 1))
            (matrixX natt nrows toks) zeros (natt + 1) (natt + 1) nrows) (natt + 1))))
        (transpose (matrixX natt nrows toks) zeros nrows (natt + 1))
        zeros (natt + 1) nrows (natt + 1) (i : ℕ) k
      * vectorY natt nrows toks k 0) nrows]
  rw [Matrix.mul_apply]
  refine Finset.sum_congr rfl fun k _ => ?_
  have hy : vectorY natt nrows toks (k : ℕ) 0 = trainY natt nrows toks k 0 := rfl
  rw [hy]
  congr 1
  rw [multiply_eq, if_pos ⟨i.isLt, k.isLt⟩, show zeros (i : ℕ) (k : ℕ) = 0 from rfl, zero_add,
    Matrix.mul_apply]
  rw [← Fin.sum_univ_eq_sum_range
    (fun l => matOfFin (inverse (finOfMat
          (multiply (transpose (matrixX natt nrows toks) zeros nrows (natt + 1))
            (matrixX natt nrows toks) zeros (natt + 1) (natt + 1) nrows) (natt + 1)))
        (i : ℕ) l
      * transpose (matrixX natt nrows toks) zeros nrows (natt + 1) l (k : ℕ)) (natt + 1)]
  refine Finset.sum_congr rfl fun l _ => ?_
  rw [hInv i l]
  simp only [Matrix.transpose_apply]
  congr 1
  rw [transpose_in _ _ _ _ _ l.isLt k.isLt]
  rfl

/-! ### The claims

Concrete evaluations below go through `decide`; the rational operations in
Batteries are marked irreducible, which only hides them from elaboration,
so they are re-marked semireducible for this file. -/

attribute [local semireducible] Rat.add Rat.mul Rat.sub Rat.inv

set_option maxRecDepth 10000

/-- Claim C1: for every square matrix `A` of size `n ≥ 1` that is
non-singular and for which Gauss-Jordan elimination without row swapping
encounters no zero pivot, the matrix returned by `inverse(A, n)` satisfies
`A_original * I = identity` (exactly, over ℚ). -/
theorem claim1_inverse_correct (n : ℕ) (hn : 1 ≤ n) (A : Matrix (Fin n) (Fin n) ℚ)
    (hns : ∃ B, A * B = 1) (hnp : noZeroPivot A = true) :
    A * inverse A = 1 :=
  Matrix.mul_eq_one_comm.mp (inverse_mul A hnp)

/-- Witness for claim C1: the 1×1 identity matrix is non-singular and its
elimination meets no zero pivot. -/
theorem claim1_witness :
    1 ≤ 1 ∧ (∃ B, (1 : Matrix (Fin 1) (Fin 1) ℚ) * B = 1)
      ∧ noZeroPivot (1 : Matrix (Fin 1) (Fin 1) ℚ) = true
      ∧ (1 : Matrix (Fin 1) (Fin 1) ℚ) * inverse 1 = 1 :=
  ⟨by decide, ⟨1, one_mul 1⟩, by decide,
    claim1_inverse_correct 1 (by decide) 1 ⟨1, one_mul 1⟩ (by decide)⟩

/-- Claim C2: the solver computes `w = (XᵗX)⁻¹ Xᵗ y` for the parsed
training matrix `X` (intercept column prepended) and target vector `y`,
by composing transpose, multiply, invert, multiply, multiply, each into a
freshly zero-initialised buffer, as `mainW` does. -/
theorem claim2_solver_normal_equations (natt nrows : ℕ) (toks : List ℚ)
    (i : Fin (natt + 1)) :
    mainW natt nrows toks (i : ℕ) 0
      = (inverse ((trainX natt nrows toks).transpose * trainX natt nrows toks)
          * (trainX natt nrows toks).transpose * trainY natt nrows toks) i 0 :=
  mainW_eq_normal natt nrows toks i

/-- Claim C3: `multiply(A, B, D, r, c, k)` accumulates into `D`: the final
value of `D[i][j]` is its initial value plus `Σ A[i][k']*B[k'][j]`, and on a
zero-initialised destination the result is exactly the matrix product cell. -/
theorem claim3_multiply_accumulates (A B D : Mat) (rows cols inner i j : ℕ)
    (hi : i < rows) (hj : j < cols) :
    multiply A B D rows cols inner i j
        = D i j + ∑ k in Finset.range inner, A i k * B k j
      ∧ multiply A B zeros rows cols inner i j
        = ∑ k in Finset.range inner, A i k * B k j := by
  constructor
  · rw [multiply_eq, if_pos ⟨hi, hj⟩]
  · rw [multiply_eq, if_pos ⟨hi, hj⟩, show zeros i j = 0 from rfl, zero_add]

/-- Witness for claim C3 at concrete matrices and indices. -/
theorem claim3_witness :
    1 < 2 ∧ 1 < 2
      ∧ (multiply zeros zeros zeros 2 2 2 1 1
            = zeros 1 1 + ∑ k in Finset.range 2, zeros 1 k * zeros k 1
          ∧ multiply zeros zeros zeros 2 2 2 1 1
            = ∑ k in Finset.range 2, zeros 1 k * zeros k 1) :=
  ⟨by decide, by decide,
    claim3_multiply_accumulates zeros zeros zeros 2 2 2 1 1 (by decide) (by decide)⟩

/-- Claim C4: whenever the two input files declare different attribute
counts, the program prints a literal `error` line, exits with status 0,
and produces no prediction output. -/
theorem claim4_mismatch_error (natt nrows : ℕ) (t1 : List ℚ)
    (natt2 nrows2 : ℕ) (t2 : List ℚ) (hne : natt ≠ natt2) :
    runProgram natt nrows t1 natt2 nrows2 t2 = (["error"], 0) := by
  simp [runProgram, hne]

/-- Witness for claim C4: training declares 2 attributes, query declares 3. -/
theorem claim4_witness :
    (2 : ℕ) ≠ 3 ∧ runProgram 2 0 [] 3 0 [] = (["error"], 0) :=
  ⟨by decide, claim4_mismatch_error 2 0 [] 3 0 [] (by decide)⟩

/-- Claim C5, counterexample to the claim as stated: with intercept-only
training data whose single target is `2.7`, the prediction is `2.7`, the
program prints `3` (the `%.0f` conversion rounds to nearest), while the
truncation of the predicted target is `2` — so the printed line is not the
truncated prediction. -/
theorem claim5_counterexample :
    predictionAt 0 1 [27 / 10] 0 1 [] 0 = 27 / 10
      ∧ (runProgram 0 1 [27 / 10] 0 1 []).1 = ["3"]
      ∧ toString (truncInt ((27 : ℚ) / 10)) = "2"
      ∧ (runProgram 0 1 [27 / 10] 0 1 []).1
          ≠ [toString (truncInt ((27 : ℚ) / 10))] := by
  refine ⟨by decide, by decide, by decide, by decide⟩

/-- Claim C5 as amended: on matching attribute counts the program prints
exactly one line per query row, each line holding the predicted target
rounded to the nearest integer by the `%.0f` conversion (no decimal
point), and exits with status 0. -/
theorem claim5_success_rounded (natt nrows : ℕ) (t1 : List ℚ)
    (nrows2 : ℕ) (t2 : List ℚ) :
    runProgram natt nrows t1 natt nrows2 t2
      = ((List.range nrows2).map
          (fun i => fmtF0 (predictionAt natt nrows t1 natt nrows2 t2 i)), 0) := by
  have hne : ¬ (natt ≠ natt) := fun h => h rfl
  simp only [runProgram, if_neg hne]
  have hmap : printPriceLines
      (multiply (queryX natt nrows2 t2) (mainW natt nrows t1) zeros nrows2 1 (natt + 1))
      nrows2
      = (List.range nrows2).map
          (fun i => fmtF0 (predictionAt natt nrows t1 natt nrows2 t2 i)) := by
    refine List.map_congr_left fun i hi => ?_
    have hi2 : i < nrows2 := List.mem_range.mp hi
    congr 1
    rw [multiply_eq, if_pos ⟨hi2, Nat.zero_lt_one⟩, show zeros i 0 = 0 from rfl, zero_add]
    rfl
  rw [hmap]

/-- Claim C6: `transpose(source, dest, rows, cols)` produces a `cols × rows`
result with `result[i][j] = source[j][i]` for `i < cols`, `j < rows`, and
leaves the source allocation unmodified. -/
theorem claim6_transpose_spec (h : Heap) (src dst rows cols : ℕ) (hsd : src ≠ dst) :
    (∀ i j, i < cols → j < rows → transposeH h src dst rows cols dst i j = h src j i)
      ∧ ∀ i j, transposeH h src dst rows cols src i j = h src i j := by
  obtain ⟨hframe, hdst⟩ := transposeH_spec h src dst rows cols hsd
  constructor
  · intro i j hi hj
    rw [hdst, transpose_eq, if_pos ⟨hi, hj⟩]
  · intro i j
    rw [hframe src hsd]

/-- Witness for claim C6 on a concrete heap (the source allocation is 0,
the destination is 1). -/
theorem claim6_witness :
    (0 : ℕ) ≠ 1
      ∧ ((∀ i j, i < 3 → j < 2 →
            transposeH (fun _ _ _ => (1 : ℚ)) 0 1 2 3 1 i j = (fun _ _ _ => (1 : ℚ)) 0 j i)
          ∧ ∀ i j, transposeH (fun _ _ _ => (1 : ℚ)) 0 1 2 3 0 i j
              = (fun _ _ _ => (1 : ℚ)) 0 i j) :=
  ⟨by decide, claim6_transpose_spec (fun _ _ _ => (1 : ℚ)) 0 1 2 3 (by decide)⟩

/-- Claim C7: transpose is an involution — transposing a `rows × cols`
matrix into a fresh zeroed buffer and transposing the result into another
fresh zeroed buffer reproduces every cell of the original. -/
theorem claim7_transpose_involution (A : Mat) (rows cols i j : ℕ)
    (hi : i < rows) (hj : j < cols) :
    transpose (transpose A zeros rows cols) zeros cols rows i j = A i j := by
  rw [transpose_eq, if_pos ⟨hi, hj⟩, transpose_eq, if_pos ⟨hj, hi⟩]

/-- Witness for claim C7 at a concrete matrix and cell. -/
theorem claim7_witness :
    1 < 2 ∧ 2 < 3
      ∧ transpose (transpose (fun a b => (a + b : ℚ)) zeros 2 3) zeros 3 2 1 2
          = (fun a b => (a + b : ℚ)) 1 2 :=
  ⟨by decide, by decide,
    claim7_transpose_involution (fun a b => (a + b : ℚ)) 2 3 1 2 (by decide) (by decide)⟩

/-- Claim C8: `inverse` consumes its input as a side effect — for every
square non-singular `A` whose elimination meets no zero pivot, the input
array has become the identity matrix when the function returns. -/
theorem claim8_inverse_consumes {n : ℕ} (A : Matrix (Fin n) (Fin n) ℚ)
    (hns : ∃ B, A * B = 1) (hnp : noZeroPivot A = true) :
    (gaussJordan A).A = 1 :=
  gaussJordan_A_one A hnp

/-- Witness for claim C8: the 2×2 identity matrix. -/
theorem claim8_witness :
    (∃ B, (1 : Matrix (Fin 2) (Fin 2) ℚ) * B = 1)
      ∧ noZeroPivot (1 : Matrix (Fin 2) (Fin 2) ℚ) = true
      ∧ (gaussJordan (1 : Matrix (Fin 2) (Fin 2) ℚ)).A = 1 :=
  ⟨⟨1, one_mul 1⟩, by decide, claim8_inverse_consumes 1 ⟨1, one_mul 1⟩ (by decide)⟩

/-- Claim C9: end-to-end — training data `(1,3)` and `(2,5)` (one
attribute, two rows) yields `w = [1, 2]` exactly, and the query row `4`
prints the line `9` with exit status 0. -/
theorem claim9_end_to_end :
    mainW 1 2 [1, 3, 2, 5] 0 0 = 1 ∧ mainW 1 2 [1, 3, 2, 5] 1 0 = 2
      ∧ runProgram 1 2 [1, 3, 2, 5] 1 1 [4] = (["9"], 0) := by
  refine ⟨by decide, by decide, by decide⟩

/-- Claim C10: `multiply` never modifies its two operand allocations — when
the destination is a different allocation, every cell of the two operands
is unchanged by the call. -/
theorem claim10_multiply_frame (h : Heap) (ma mb res rows cols inner : ℕ)
    (h1 : ma ≠ res) (h2 : mb ≠ res) :
    (∀ i j, multiplyH h ma mb res rows cols inner ma i j = h ma i j)
      ∧ ∀ i j, multiplyH h ma mb res rows cols inner mb i j = h mb i j := by
  obtain ⟨hframe, _⟩ := multiplyH_spec h ma mb res rows cols inner h1 h2
  exact ⟨fun i j => by rw [hframe ma h1], fun i j => by rw [hframe mb h2]⟩

/-- Witness for claim C10 on a concrete heap (operands 0 and 1,
destination 2). -/
theorem claim10_witness :
    (0 : ℕ) ≠ 2 ∧ (1 : ℕ) ≠ 2
      ∧ ((∀ i j, multiplyH (fun _ _ _ => (1 : ℚ)) 0 1 2 2 2 2 0 i j
            = (fun _ _ _ => (1 : ℚ)) 0 i j)
          ∧ ∀ i j, multiplyH (fun _ _ _ => (1 : ℚ)) 0 1 2 2 2 2 1 i j
              = (fun _ _ _ => (1 : ℚ)) 1 i j) :=
  ⟨by decide, by decide,
    claim10_multiply_frame (fun _ _ _ => (1 : ℚ)) 0 1 2 2 2 2 (by decide) (by decide)⟩

end Estimate
